import Mathlib

/-!
Verification development for the habit-tracker backend.

The Python sources are shallowly embedded: strings are Lean `String`s
(lists of `Char`), timestamps are `Int` microseconds since the epoch,
fallible operations return `Option`, and the network-backed adapters are
modelled as pure functions over an explicit list of already-fetched rows.
Regular-expression operations from `tag_validation.py` are translated
operation by operation into executable list functions.
-/

/-! ## Character helpers (ASCII model of Python's str methods / regex classes) -/

/-- Python `\s` on ASCII text: space, tab, newline, carriage return,
vertical tab, form feed. -/
def isSpaceCh (c : Char) : Bool :=
  c = ' ' || c = '\t' || c = '\n' || c = '\r' || c = '\x0b' || c = '\x0c'

/-- Python `str.lower()` restricted to ASCII letters. -/
def toLowerCh (c : Char) : Char :=
  if 'A' ≤ c && c ≤ 'Z' then Char.ofNat (c.toNat + 32) else c

/-- The regex class `[a-z]`. -/
def isLowerCh (c : Char) : Bool := 'a' ≤ c && c ≤ 'z'

/-- The regex class `[0-9]`. -/
def isDigitCh (c : Char) : Bool := '0' ≤ c && c ≤ '9'

/-- The regex class `[a-z0-9-]`: the characters `normalize_tag` keeps. -/
def isAllowedCh (c : Char) : Bool := isLowerCh c || isDigitCh c || c = '-'

/-- The regex class `[_\s]`: the characters `normalize_tag` turns into hyphens. -/
def isSepCh (c : Char) : Bool := c = '_' || isSpaceCh c

/-- The hyphen class used by `re.sub(r'-+', '-', ...)`. -/
def isHyphCh (c : Char) : Bool := c = '-'

/-! ## Regex-substitution primitives -/

/-- `re.sub(p+, r, s)` for a character class `p`: every maximal run of
characters satisfying `p` is replaced by the single character `r`. -/
def squash (p : Char → Bool) (r : Char) : List Char → List Char
  | [] => []
  | c :: rest =>
    match rest with
    | [] => if p c then [r] else [c]
    | d :: _ =>
      if p c && p d then squash p r rest
      else (if p c then r else c) :: squash p r rest

/-- Drop the trailing run of characters satisfying `p`. -/
def dropTrail (p : Char → Bool) (l : List Char) : List Char :=
  (l.reverse.dropWhile p).reverse

/-- Python `str.strip` for a character class `p`: drop the leading and the
trailing run of characters satisfying `p`. -/
def pyStrip (p : Char → Bool) (l : List Char) : List Char :=
  dropTrail p (l.dropWhile p)

/-! ## TagValidator.normalize_tag -/

/-- `TagValidator.normalize_tag` on the character list: lowercase and strip
whitespace, replace runs of `[_\s]` by single hyphens, drop characters
outside `[a-z0-9-]`, collapse repeated hyphens, strip leading and trailing
hyphens. -/
def normalizeL (l : List Char) : List Char :=
  let s1 := pyStrip isSpaceCh (l.map toLowerCh)
  let s2 := squash isSepCh '-' s1
  let s3 := s2.filter isAllowedCh
  let s4 := squash isHyphCh '-' s3
  pyStrip isHyphCh s4

/-- `TagValidator.normalize_tag`. -/
def normalize_tag (t : String) : String := { data := normalizeL t.data }

/-! ## TagValidator.is_kebab_case -/

/-- The state machine of the regex `[a-z]+(-[a-z]+)*` consuming the whole
input: `inSeg` records whether the current segment already holds at least
one lowercase letter. -/
def kebabRun (inSeg : Bool) : List Char → Bool
  | [] => inSeg
  | c :: rest =>
    if isLowerCh c then kebabRun true rest
    else if c = '-' then inSeg && kebabRun false rest
    else false

/-- `TagValidator.is_kebab_case`, i.e. `bool(re.match(r'^[a-z]+(-[a-z]+)*$', tag))`
under Python semantics: `$` matches at the end of the string or just before
one newline at the very end of the string. -/
def is_kebab_case (t : String) : Bool :=
  kebabRun false t.data ||
    (match t.data.getLast? with
     | some c => c = '\n' && kebabRun false t.data.dropLast
     | none => false)

/-- The segments of a character list split at hyphens (every hyphen is a
separator; empty segments are kept). -/
def segsOf : List Char → List (List Char)
  | [] => [[]]
  | c :: rest =>
    if c = '-' then [] :: segsOf rest
    else
      match segsOf rest with
      | [] => [[c]]
      | s :: ss => (c :: s) :: ss

/-- A well-formed kebab segment: nonempty and all lowercase letters. -/
def segOk (s : List Char) : Bool := !s.isEmpty && s.all isLowerCh

/-- A string that matches `^[a-z]+(-[a-z]+)*$` exactly, read as the spec
words it: only lowercase letters joined by single internal hyphens, no
digits, no leading or trailing hyphen, no empty segments, no other
characters anywhere. -/
def strictKebab (l : List Char) : Bool := (segsOf l).all segOk

/-- Modelled from the spec's words for comparison with `is_kebab_case`:
true iff the string matches `^[a-z]+(-[a-z]+)*$` exactly, with no other
characters anywhere in the string (including trailing whitespace or
newlines). -/
def kebab_exact_spec (t : String) : Bool := strictKebab t.data

/-! ## The fixed tag taxonomy (tag_validation.py module constants) -/

/-- `UMBRELLA_TAGS` (a Python set, modelled as a list used for membership). -/
def UMBRELLA_TAGS : List String := ["health", "food", "home", "transportation"]

/-- `APPROVED_TAGS`. -/
def APPROVED_TAGS : List String :=
  ["health", "exercise", "workout",
   "food", "cooking", "meal-prep", "meal", "takeout", "grocery", "restock",
   "home", "cleaning", "laundry", "bathroom",
   "transportation", "public-transit", "walking-errand", "rideshare", "cost-saving"]

/-- `TAG_HIERARCHY`, in its insertion order. -/
def TAG_HIERARCHY : List (String × List String) :=
  [("health", ["exercise", "workout"]),
   ("food", ["cooking", "meal-prep", "meal", "takeout", "grocery", "restock"]),
   ("home", ["cleaning", "laundry", "bathroom"]),
   ("transportation", ["public-transit", "walking-errand", "rideshare", "cost-saving"])]

/-- `CONTEXTUAL_TAGS`. -/
def CONTEXTUAL_TAGS : List String := ["cost-saving", "restock"]

/-! ## TagValidator helper methods -/

/-- `TagValidator.has_umbrella_tag`. -/
def has_umbrella_tag (tags : List String) : Bool :=
  tags.any (fun t => UMBRELLA_TAGS.contains t)

/-- `TagValidator.get_umbrella_for_tag`: the first hierarchy entry whose
umbrella equals the tag or whose specific tags contain it. -/
def get_umbrella_for_tag (tag : String) : Option String :=
  (TAG_HIERARCHY.find? (fun kv => kv.2.contains tag || tag == kv.1)).map (fun kv => kv.1)

/-- Append `t` unless already present (models adding to a Python set while
remembering insertion order). -/
def insertIfAbsent (acc : List String) (t : String) : List String :=
  if acc.contains t then acc else acc ++ [t]

/-- Lexicographic comparison of character lists (executable model of
Python's string `<=`, and of text ordering in the database). -/
def listLeB : List Char → List Char → Bool
  | [], _ => true
  | _ :: _, [] => false
  | c :: cs, d :: ds => if c = d then listLeB cs ds else decide (c < d)

/-- Lexicographic `<=` on strings. -/
def strLeB (a b : String) : Bool := listLeB a.data b.data

/-- Insert into a `strLeB`-sorted list of strings. -/
def insertSortedStr (x : String) : List String → List String
  | [] => [x]
  | y :: ys => if strLeB x y then x :: y :: ys else y :: insertSortedStr x ys

/-- Python `sorted` on a list of strings. -/
def sortStrs (l : List String) : List String := l.foldr insertSortedStr []

/-- `TagValidator.suggest_umbrella_tags`: collect, for every tag, its
umbrella when that umbrella is not already among the tags; deduplicate and
sort. -/
def suggest_umbrella_tags (tags : List String) : List String :=
  sortStrs (tags.foldl
    (fun acc t =>
      match get_umbrella_for_tag t with
      | some u => if tags.contains u then acc else insertIfAbsent acc u
      | none => acc)
    [])

/-! ## TagValidator.validate_and_normalize -/

/-- `TagValidationResult` (`is_valid`, per the code, is `len(errors) == 0`). -/
structure TagValidationResult where
  is_valid : Bool
  normalized_tags : List String
  errors : List String
  warnings : List String
  suggestions : List String
deriving DecidableEq

/-- An apostrophe, as a string. -/
def apos : String := String.singleton (Char.ofNat 39)

/-- The suggestion recorded when normalization changed a tag. -/
def normalized_suggestion (t n : String) : String :=
  apos ++ t ++ apos ++ " normalized to " ++ apos ++ n ++ apos

/-- The combined kebab-case format error message. -/
def kebab_format_message (bad : List String) : String :=
  "Tags must use kebab-case format: " ++ String.intercalate ", " bad

/-- The unapproved-tags warning message. -/
def unapproved_warning (u : List String) : String :=
  "Unapproved tags detected: " ++ String.intercalate ", " u

/-- The generic suggestion accompanying the unapproved-tags warning. -/
def approved_suggestion_msg : String :=
  "Consider using approved tags from the PRD or request new tag approval"

/-- The umbrella-missing error message. -/
def umbrella_error_msg : String :=
  "At least one umbrella tag is required (health, food, home, transportation)"

/-- The umbrella suggestion message. -/
def umbrella_suggestion_msg (us : List String) : String :=
  "Consider adding umbrella tag(s): " ++ String.intercalate ", " us

/-- The advisory suggestion of Step 5. -/
def specific_suggestion_msg : String :=
  "Consider adding specific tags to provide more detail about the activity"

/-- Step 1 of `validate_and_normalize`: skip blank inputs, normalize the
rest, drop tags that normalize to the empty string, and record a suggestion
for every tag normalization changed. Returns the normalized tags and those
suggestions, in input order. -/
def normalize_step : List String → List String × List String
  | [] => ([], [])
  | t :: rest =>
    if t.data.all isSpaceCh then normalize_step rest
    else
      let n := normalize_tag t
      if n.data.isEmpty then normalize_step rest
      else
        let p := normalize_step rest
        (n :: p.1, (if n = t then p.2 else normalized_suggestion t n :: p.2))

/-- Order-preserving first-occurrence deduplication with an explicit seen
list (the `seen` set of the code). -/
def dedupFirstSeen : List String → List String → List String
  | [], _ => []
  | t :: rest, seen =>
    if seen.contains t then dedupFirstSeen rest seen
    else t :: dedupFirstSeen rest (t :: seen)

/-- The duplicate-removal pass of `validate_and_normalize`. -/
def dedup_preserving_order (l : List String) : List String := dedupFirstSeen l []

/-- `TagValidator.validate_and_normalize`, step for step. -/
def validate_and_normalize (tags : List String) : TagValidationResult :=
  let p := normalize_step tags
  let normalized := dedup_preserving_order p.1
  let invalid_format := normalized.filter (fun t => !is_kebab_case t)
  let errors1 : List String :=
    if invalid_format.isEmpty then [] else [kebab_format_message invalid_format]
  let unapproved := normalized.filter (fun t => !APPROVED_TAGS.contains t)
  let warnings : List String :=
    if unapproved.isEmpty then [] else [unapproved_warning unapproved]
  let sug2 : List String :=
    if unapproved.isEmpty then [] else [approved_suggestion_msg]
  let umbrellaMissing := !has_umbrella_tag normalized
  let errors2 : List String := if umbrellaMissing then [umbrella_error_msg] else []
  let sug3 : List String :=
    if umbrellaMissing then
      (let su := suggest_umbrella_tags normalized
       if su.isEmpty then [] else [umbrella_suggestion_msg su])
    else []
  let umbrella_count := (normalized.filter (fun t => UMBRELLA_TAGS.contains t)).length
  let specific_count :=
    (normalized.filter (fun t => !UMBRELLA_TAGS.contains t && !CONTEXTUAL_TAGS.contains t)).length
  let sug4 : List String :=
    if 0 < umbrella_count && specific_count == 0 then [specific_suggestion_msg] else []
  { is_valid := (errors1 ++ errors2).isEmpty
    normalized_tags := normalized
    errors := errors1 ++ errors2
    warnings := warnings
    suggestions := p.2 ++ sug2 ++ sug3 ++ sug4 }

/-! ## TagValidator.suggest_tags_for_habit_name -/

/-- The keyword table of `suggest_tags_for_habit_name`, in insertion order. -/
def keyword_mapping : List (String × List String) :=
  [("workout", ["health", "exercise", "workout"]),
   ("gym", ["health", "exercise", "workout"]),
   ("run", ["health", "exercise"]),
   ("exercise", ["health", "exercise"]),
   ("fitness", ["health", "exercise"]),
   ("cook", ["food", "cooking"]),
   ("meal", ["food", "cooking", "meal"]),
   ("prep", ["food", "meal-prep"]),
   ("grocery", ["food", "grocery", "restock"]),
   ("trader", ["food", "grocery", "restock"]),
   ("safeway", ["food", "grocery", "restock"]),
   ("takeout", ["food", "takeout"]),
   ("pickup", ["food", "takeout"]),
   ("dinner", ["food", "cooking", "meal"]),
   ("lunch", ["food", "cooking", "meal"]),
   ("breakfast", ["food", "cooking", "meal"]),
   ("clean", ["home", "cleaning"]),
   ("laundry", ["home", "laundry", "cleaning"]),
   ("bathroom", ["home", "bathroom", "cleaning"]),
   ("house", ["home", "cleaning"]),
   ("bart", ["transportation", "public-transit"]),
   ("bus", ["transportation", "public-transit"]),
   ("train", ["transportation", "public-transit"]),
   ("transit", ["transportation", "public-transit"]),
   ("walk", ["transportation", "walking-errand"]),
   ("uber", ["transportation", "rideshare"]),
   ("lyft", ["transportation", "rideshare"])]

/-- Whether the first list is a prefix of the second. -/
def isPrefixOfB : List Char → List Char → Bool
  | [], _ => true
  | _ :: _, [] => false
  | c :: cs, d :: ds => c = d && isPrefixOfB cs ds

/-- Python's substring test `needle in hay`. -/
def containsSub (needle : List Char) : List Char → Bool
  | [] => needle.isEmpty
  | c :: rest => isPrefixOfB needle (c :: rest) || containsSub needle rest

/-- The set of tags collected from every keyword that occurs as a substring
of the lowercased habit name (the Python set is modelled as an
insertion-ordered duplicate-free list). -/
def collect_keyword_tags (nameLower : List Char) : List String :=
  keyword_mapping.foldl
    (fun acc kv => if containsSub kv.1.data nameLower then kv.2.foldl insertIfAbsent acc else acc)
    []

/-- `TagValidator.suggest_tags_for_habit_name`: keyword matching is
substring-based on the lowercased name; umbrella tags are emitted before
specific tags; the list is truncated to `limit`. -/
def suggest_tags_for_habit_name (habit_name : String) (limit : Nat) : List String :=
  let collected := collect_keyword_tags (habit_name.data.map toLowerCh)
  let umbrella := collected.filter (fun t => UMBRELLA_TAGS.contains t)
  let specific := collected.filter (fun t => !UMBRELLA_TAGS.contains t)
  (umbrella ++ specific).take limit

/-! ## The canonical event model (base.py HabitEvent) -/

/-- `HabitEvent`: `date` is an ISO-8601 string, `duration` is in minutes,
`source` tracks which adapter produced the event. -/
structure HabitEvent where
  id : String
  name : String
  date : String
  participants : Option (List String)
  duration : Int
  categories : List String
  source : Option String
deriving DecidableEq

/-- `DataSource.add_source_metadata`: overwrite every event's `source`
field with the adapter's name. -/
def add_source_metadata (nm : String) (habits : List HabitEvent) : List HabitEvent :=
  habits.map (fun h => { h with source := some nm })

/-! ## Timestamps: datetime.fromisoformat modelled over Int microseconds -/

/-- Microseconds per day. -/
def USPERDAY : Int := 86400000000

/-- `datetime.replace(hour=0, minute=0, second=0, microsecond=0)`: floor a
timestamp to its day boundary. -/
def midnightU (t : Int) : Int := t - t.emod USPERDAY

/-- Read exactly `k` decimal digits, accumulating their value. -/
def readNDigits : Nat → Nat → List Char → Option (Nat × List Char)
  | 0, acc, l => some (acc, l)
  | k + 1, acc, l =>
    match l with
    | [] => none
    | c :: rest =>
      if isDigitCh c then readNDigits k (acc * 10 + (c.toNat - 48)) rest else none

/-- Consume one expected character. -/
def expectCh (c : Char) : List Char → Option (List Char)
  | [] => none
  | d :: rest => if d = c then some rest else none

/-- Gregorian leap year. -/
def isLeapYear (y : Int) : Bool :=
  (y.emod 4 == 0 && y.emod 100 != 0) || y.emod 400 == 0

/-- Days in a month of the proleptic Gregorian calendar. -/
def daysInMonth (y : Int) (m : Nat) : Nat :=
  match m with
  | 1 => 31 | 2 => if isLeapYear y then 29 else 28 | 3 => 31
  | 4 => 30 | 5 => 31 | 6 => 30 | 7 => 31 | 8 => 31
  | 9 => 30 | 10 => 31 | 11 => 30 | 12 => 31
  | _ => 0

/-- Days from 1970-01-01 to the given civil date (standard era-based
algorithm over truncating integer division). -/
def daysFromCivil (y : Int) (m d : Nat) : Int :=
  let y2 : Int := if m ≤ 2 then y - 1 else y
  let era : Int := (if 0 ≤ y2 then y2 else y2 - 399) / 400
  let yoe : Int := y2 - era * 400
  let mI : Int := (m : Int)
  let doy : Int := (153 * (if 2 < m then mI - 3 else mI + 9) + 2) / 5 + (d : Int) - 1
  let doe : Int := yoe * 365 + yoe / 4 - yoe / 100 + doy
  era * 146097 + doe - 719468

/-- Decimal value of a digit list. -/
def digitsVal (l : List Char) : Nat := l.foldl (fun a c => a * 10 + (c.toNat - 48)) 0

/-- Optional fractional-second field after the seconds: a dot followed by
at least one digit; the first six digits give microseconds, the rest are
truncated (Python 3.11 `fromisoformat`). -/
def parseFracOpt : List Char → Option (Int × List Char)
  | [] => some (0, [])
  | c :: rest =>
    if c = '.' then
      let digs := rest.takeWhile isDigitCh
      if digs.isEmpty then none
      else
        let first6 := digs.take 6
        let micro : Int := (digitsVal first6 * 10 ^ (6 - first6.length) : Nat)
        some (micro, rest.drop digs.length)
    else some (0, c :: rest)

/-- Optional UTC-offset field `±HH:MM`, returned in seconds. -/
def parseOffsetOpt : List Char → Option (Int × List Char)
  | [] => some (0, [])
  | c :: rest =>
    if c = '+' || c = '-' then
      match readNDigits 2 0 rest with
      | none => none
      | some (oh, r1) =>
        match expectCh ':' r1 with
        | none => none
        | some r2 =>
          match readNDigits 2 0 r2 with
          | none => none
          | some (om, r3) =>
            if 23 < oh || 59 < om then none
            else
              let secs : Int := (oh : Int) * 3600 + (om : Int) * 60
              some (if c = '-' then -secs else secs, r3)
    else none

/-- `datetime.fromisoformat` on the formats this repository's data uses
(`YYYY-MM-DD[THH:MM:SS[.ffff][±HH:MM]]`), yielding microseconds since the
epoch (offset-aware values are shifted to UTC). Anything else fails. -/
def parseIsoCore (l : List Char) : Option Int := do
  let (y, r1) ← readNDigits 4 0 l
  let r2 ← expectCh '-' r1
  let (mo, r3) ← readNDigits 2 0 r2
  let r4 ← expectCh '-' r3
  let (dy, r5) ← readNDigits 2 0 r4
  if mo < 1 || 12 < mo then none
  else if dy < 1 || daysInMonth (y : Int) mo < dy then none
  else
    match r5 with
    | [] => some (daysFromCivil (y : Int) mo dy * USPERDAY)
    | c :: r6 =>
      if c = 'T' || c = ' ' then do
        let (hh, r7) ← readNDigits 2 0 r6
        let r8 ← expectCh ':' r7
        let (mi, r9) ← readNDigits 2 0 r8
        let r10 ← expectCh ':' r9
        let (ss, r11) ← readNDigits 2 0 r10
        if 23 < hh || 59 < mi || 59 < ss then none
        else do
          let (micro, r12) ← parseFracOpt r11
          let (off, r13) ← parseOffsetOpt r12
          if r13.isEmpty then
            some ((daysFromCivil (y : Int) mo dy * 86400
                   + (hh : Int) * 3600 + (mi : Int) * 60 + (ss : Int) - off) * 1000000
                  + micro)
          else none
      else none

/-- `s.replace('Z', '+00:00')`: every `Z` becomes `+00:00`. -/
def replaceZ (l : List Char) : List Char :=
  l.flatMap (fun c => if c = 'Z' then ['+', '0', '0', ':', '0', '0'] else [c])

/-- `datetime.fromisoformat(s.replace('Z', '+00:00'))` as the adapters
invoke it, `none` for an unparseable string. -/
def parseIsoZ (s : String) : Option Int := parseIsoCore (replaceZ s.data)

/-- The inclusive-bounds date filter shared by the mock and the
simple-sheets adapters: parse each event's stored timestamp, keep the
event when `start <= t <= end`, and skip (not fail on) unparseable
entries. -/
def filter_by_date_range (data : List HabitEvent) (startT endT : Int) : List HabitEvent :=
  data.filter (fun h =>
    match parseIsoZ h.date with
    | some d => decide (startT ≤ d) && decide (d ≤ endT)
    | none => false)

/-! ## MockDataSource (mock_data.py) -/

/-- The first fixture event of `MockDataSource`. -/
def mockEv1 : HabitEvent :=
  { id := "cal_001", name := "Morning Workout", date := "2025-01-14T06:00:00.000Z",
    participants := none, duration := 60, categories := ["fitness", "morning"],
    source := some "mock_data" }

/-- The fixed sample data of `MockDataSource` (constructed with
`source=self.name`, i.e. `"mock_data"`). -/
def mock_sample_data : List HabitEvent :=
  [mockEv1,
   { id := "cal_002", name := "Grocery Shopping", date := "2025-01-14T10:30:00.000Z",
     participants := none, duration := 45, categories := ["food", "errands"],
     source := some "mock_data" },
   { id := "cal_003", name := "Cooking Dinner", date := "2025-01-14T18:00:00.000Z",
     participants := some ["partner"], duration := 90, categories := ["food", "cooking"],
     source := some "mock_data" },
   { id := "cal_004", name := "Interview Study", date := "2025-01-14T20:00:00.000Z",
     participants := none, duration := 120, categories := ["career", "learning"],
     source := some "mock_data" },
   { id := "cal_005", name := "Evening Run", date := "2025-01-13T19:00:00.000Z",
     participants := none, duration := 30, categories := ["fitness", "cardio"],
     source := some "mock_data" },
   { id := "cal_006", name := "Meal Prep", date := "2025-01-13T14:00:00.000Z",
     participants := none, duration := 120, categories := ["food", "cooking", "prep"],
     source := some "mock_data" }]

/-- `MockDataSource.fetch_all_habits` (a copy of the sample data). -/
def mock_fetch_all : List HabitEvent := mock_sample_data

/-- `MockDataSource.fetch_habits_by_date_range`. -/
def mock_fetch_by_range (startT endT : Int) : List HabitEvent :=
  filter_by_date_range mock_sample_data startT endT

/-- `DataSource.fetch_recent_habits` (the base-class default) instantiated
for the mock adapter: range from today's midnight minus `days` days to now. -/
def mock_fetch_recent (days : Nat) (now : Int) : List HabitEvent :=
  mock_fetch_by_range (midnightU now - (days : Int) * USPERDAY) now

/-! ## SimpleGoogleSheetsDataSource (simple_sheets.py) -/

/-- The duration cell of a sheet row as `int(float(...))` sees it: missing
(`NaN`, coerced to 0), a numeric value, or text that fails to parse (which
makes the whole row raise and be skipped). -/
inductive DurCell where
  | nan : DurCell
  | num : Int → DurCell
  | malformed : DurCell
deriving DecidableEq

/-- One CSV row of the sheet. The participant and category cells are
modelled after their dedicated parsers ran (`_parse_participants`,
`_parse_categories` — string plumbing not involved in any claim), the
duration cell by `DurCell`. `claimedSource` stands for whatever source the
upstream data reports: the adapter never reads it. -/
structure SheetRow where
  rowId : String
  rowName : String
  rowDate : String
  rowParticipants : Option (List String)
  rowDuration : DurCell
  rowCategories : List String
  claimedSource : String
deriving DecidableEq

/-- The per-row body of `SimpleGoogleSheetsDataSource.fetch_all_habits`:
build a `HabitEvent` with `source=self.name`, stripping quotes around the
date; a malformed duration cell raises and the row is skipped. -/
def sheet_row_to_habit_event (r : SheetRow) : Option HabitEvent :=
  match r.rowDuration with
  | DurCell.malformed => none
  | DurCell.nan =>
    some { id := r.rowId, name := r.rowName,
           date := { data := pyStrip (fun c => c = '"') r.rowDate.data },
           participants := r.rowParticipants, duration := 0,
           categories := r.rowCategories, source := some "google_sheets_simple" }
  | DurCell.num n =>
    some { id := r.rowId, name := r.rowName,
           date := { data := pyStrip (fun c => c = '"') r.rowDate.data },
           participants := r.rowParticipants, duration := n,
           categories := r.rowCategories, source := some "google_sheets_simple" }

/-- `SimpleGoogleSheetsDataSource.fetch_all_habits` over the downloaded
rows. -/
def sheets_fetch_all (rows : List SheetRow) : List HabitEvent :=
  rows.filterMap sheet_row_to_habit_event

/-- `SimpleGoogleSheetsDataSource.fetch_habits_by_date_range`: fetch all,
then the same inclusive-bounds filter as the mock adapter. -/
def sheets_fetch_by_range (rows : List SheetRow) (startT endT : Int) : List HabitEvent :=
  filter_by_date_range (sheets_fetch_all rows) startT endT

/-- The base-class `fetch_recent_habits` instantiated for the sheets
adapter. -/
def sheets_fetch_recent (rows : List SheetRow) (days : Nat) (now : Int) : List HabitEvent :=
  sheets_fetch_by_range rows (midnightU now - (days : Int) * USPERDAY) now

/-! ## SupabaseDataSource (supabase_source.py) -/

/-- One database row (`select *`). `claimedSource` again stands for any
source column the upstream table may carry; `_row_to_habit_event` never
reads it. -/
structure SupaRow where
  rowId : String
  rowName : String
  rowDate : String
  rowParticipants : Option (List String)
  rowDuration : Int
  rowCategories : List String
  claimedSource : Option String
deriving DecidableEq

/-- `SupabaseDataSource._row_to_habit_event`: build the event with
`source=self.name`; with the row already well-typed the `except` branch is
unreachable, so the result is always `some`. -/
def supa_row_to_habit_event (r : SupaRow) : Option HabitEvent :=
  some { id := r.rowId, name := r.rowName, date := r.rowDate,
         participants := r.rowParticipants, duration := r.rowDuration,
         categories := r.rowCategories, source := some "supabase" }

/-- `SupabaseDataSource.fetch_all_habits` over the table rows. -/
def supabase_fetch_all (rows : List SupaRow) : List HabitEvent :=
  add_source_metadata "supabase" (rows.filterMap supa_row_to_habit_event)

/-- Insert into a list sorted ascending by date string. -/
def insertByDate (r : SupaRow) : List SupaRow → List SupaRow
  | [] => [r]
  | s :: rest => if strLeB r.rowDate s.rowDate then r :: s :: rest else s :: insertByDate r rest

/-- The database's `order("date")`: sort rows ascending by the date
column's text. -/
def sortByDate (rows : List SupaRow) : List SupaRow := rows.foldr insertByDate []

/-- `SupabaseDataSource.fetch_habits_by_date_range` over the table rows:
the query keeps rows with `date >= start_iso` and `date <= end_iso`
(inclusive on both ends, text comparison), orders them by date, and each
returned row is converted and stamped. The datetime arguments appear here
already serialized to ISO strings (`start_date.isoformat()`). -/
def supabase_fetch_by_range (rows : List SupaRow) (startS endS : String) : List HabitEvent :=
  add_source_metadata "supabase"
    ((sortByDate (rows.filter (fun r => strLeB startS r.rowDate && strLeB r.rowDate endS))).filterMap
      supa_row_to_habit_event)

/-- The event `supabase_fetch_by_range` emits for a row it keeps. -/
def supa_stamped (r : SupaRow) : HabitEvent :=
  { id := r.rowId, name := r.rowName, date := r.rowDate,
    participants := r.rowParticipants, duration := r.rowDuration,
    categories := r.rowCategories, source := some "supabase" }

/-! ## DataSourceManager (manager.py) -/

/-- One registered adapter as the manager sees it: a name, the result of
`is_available()`, the result of `fetch_all_habits()`, and
`fetch_habits_by_date_range` as a function of the two bounds. -/
structure SourceModel where
  name : String
  available : Bool
  fetchAllEvents : List HabitEvent
  fetchRange : Int → Int → List HabitEvent

/-- The manager's state: the registration-ordered adapter list and the
primary pointer. -/
structure ManagerModel where
  sources : List SourceModel
  primary : Option SourceModel

/-- `DataSourceManager._get_source`: resolve a name to the first adapter
carrying it, or fall back to the primary when no name is given. -/
def get_source (m : ManagerModel) (sourceName : Option String) : Option SourceModel :=
  match sourceName with
  | some n => m.sources.find? (fun s => s.name == n)
  | none => m.primary

/-- `DataSourceManager.fetch_habits_by_date_range`: delegate to the
resolved adapter when it is available, else return the empty list. -/
def manager_fetch_by_date_range (m : ManagerModel) (startT endT : Int)
    (sourceName : Option String) : List HabitEvent :=
  match get_source m sourceName with
  | some s => if s.available then s.fetchRange startT endT else []
  | none => []

/-- `DataSourceManager.fetch_recent_habits`: `end_date = now`,
`start_date = end_date - timedelta(days=days)` — the manager does NOT
truncate to midnight. -/
def manager_fetch_recent (m : ManagerModel) (days : Nat) (now : Int)
    (sourceName : Option String) : List HabitEvent :=
  manager_fetch_by_date_range m (now - (days : Int) * USPERDAY) now sourceName

/-- Modelled from the spec's words for comparison with
`manager_fetch_recent`: `fetch_recent(days)` computed as
`fetch_by_range(today_midnight - days, now)`. -/
def claimed_manager_fetch_recent (m : ManagerModel) (days : Nat) (now : Int)
    (sourceName : Option String) : List HabitEvent :=
  manager_fetch_by_date_range m (midnightU now - (days : Int) * USPERDAY) now sourceName

/-- The concatenation loop of `fetch_habits_from_all_sources`: every
available source's events, in registration order. -/
def concatAvailable : List SourceModel → List HabitEvent
  | [] => []
  | s :: rest => (if s.available then s.fetchAllEvents else []) ++ concatAvailable rest

/-- The dedup loop of `fetch_habits_from_all_sources`: walk the list,
keeping the first event of each id not yet in `seen`. -/
def keepFirstById : List HabitEvent → List String → List HabitEvent
  | [], _ => []
  | h :: t, seen =>
    if seen.contains h.id then keepFirstById t seen
    else h :: keepFirstById t (h.id :: seen)

/-- `DataSourceManager.fetch_habits_from_all_sources`: concatenate all
available sources' events, then deduplicate by id by walking the REVERSED
list (so later sources win) and reversing back. -/
def fetch_habits_from_all_sources (m : ManagerModel) : List HabitEvent :=
  (keepFirstById (concatAvailable m.sources).reverse []).reverse

/-- Keep only the last occurrence of each id, in order of last occurrence
(the executable characterization `fetch_habits_from_all_sources` is proved
to satisfy). -/
def keepLast : List HabitEvent → List HabitEvent
  | [] => []
  | h :: t => if (t.map (fun e => e.id)).contains h.id then keepLast t else h :: keepLast t

/-- `DataSourceManager.get_upcoming_today`: the calendar call's outcome is
`none` when no calendar source is configured, `some (Except.error e)` when
the delegated call raises, and `some (Except.ok l)` when it returns `l`.
Any failure yields the hardcoded two-item fallback; the function is total,
so it never raises. -/
def get_upcoming_today (cal : Option (Except String (List String))) : List String :=
  match cal with
  | some (Except.ok l) => l
  | some (Except.error _) => ["Evening meditation", "Reading session"]
  | none => ["Evening meditation", "Reading session"]

/-- The hardcoded fallback list of `get_upcoming_today`. -/
def upcoming_fallback : List String := ["Evening meditation", "Reading session"]

/-! ## Concrete fixtures used by counterexamples and witnesses -/

/-- Adapter A's copy of event `"x"`. -/
def evXA : HabitEvent :=
  { id := "x", name := "x from A", date := "2025-01-14T06:00:00.000Z",
    participants := none, duration := 1, categories := ["f1"], source := some "A" }

/-- Adapter A's event `"y"` (no collision). -/
def evYA : HabitEvent :=
  { id := "y", name := "y from A", date := "2025-01-14T07:00:00.000Z",
    participants := none, duration := 1, categories := [], source := some "A" }

/-- Adapter B's copy of event `"x"` (same id, different content). -/
def evXB : HabitEvent :=
  { id := "x", name := "x from B", date := "2025-01-14T06:00:00.000Z",
    participants := none, duration := 2, categories := ["f2"], source := some "B" }

/-- Adapter A, registered first. -/
def srcA : SourceModel :=
  { name := "A", available := true, fetchAllEvents := [evXA, evYA],
    fetchRange := fun _ _ => [] }

/-- Adapter B, registered second. -/
def srcB : SourceModel :=
  { name := "B", available := true, fetchAllEvents := [evXB],
    fetchRange := fun _ _ => [] }

/-- A manager with sources `[A, B]`, both available, colliding on id `"x"`. -/
def dedupDemoManager : ManagerModel := { sources := [srcA, srcB], primary := some srcA }

/-- An event half an hour after a midnight boundary. -/
def evEarly : HabitEvent :=
  { id := "r1", name := "Early Habit", date := "2025-01-14T00:30:00",
    participants := none, duration := 10, categories := [], source := some "demo" }

/-- A mock-style adapter holding only `evEarly`. -/
def recentDemoSource : SourceModel :=
  { name := "demo", available := true, fetchAllEvents := [evEarly],
    fetchRange := fun s e => filter_by_date_range [evEarly] s e }

/-- A manager whose primary is `recentDemoSource`. -/
def recentDemoManager : ManagerModel :=
  { sources := [recentDemoSource], primary := some recentDemoSource }

/-- A fixed "now": 2025-01-15 01:00:00. -/
def tNow : Int := (parseIsoZ "2025-01-15T01:00:00").getD 0

/-- The parsed timestamp of the first mock fixture event. -/
def tEv1 : Int := (parseIsoZ "2025-01-14T06:00:00.000Z").getD 0

/-- A database row whose date column equals the query's start bound. -/
def demoSupaRow : SupaRow :=
  { rowId := "s1", rowName := "Boundary Habit", rowDate := "2025-01-14T06:00:00",
    rowParticipants := none, rowDuration := 30, rowCategories := ["food"],
    claimedSource := some "someone-else" }

/-! ## Helper lemmas -/

lemma filter_not_isEmpty_eq_all {α : Type} (p : α → Bool) (l : List α) :
    (l.filter (fun a => !p a)).isEmpty = l.all p := by
  induction l with
  | nil => rfl
  | cons a t ih =>
    cases h : p a <;> simp [List.filter_cons, h, ih]

lemma errsEmpty (b1 b2 : Bool) (m1 m2 : String) :
    ((if b1 then ([] : List String) else [m1]) ++ (if b2 then [m2] else [])).isEmpty
      = (b1 && !b2) := by
  cases b1 <;> cases b2 <;> simp

/-- The error list of `validate_and_normalize` is empty exactly when every
normalized tag is kebab-case and some normalized tag is an umbrella tag. -/
lemma validate_errors_isEmpty (tags : List String) :
    (validate_and_normalize tags).errors.isEmpty =
      ((validate_and_normalize tags).normalized_tags.all (fun t => is_kebab_case t) &&
       has_umbrella_tag (validate_and_normalize tags).normalized_tags) := by
  have h1 : (validate_and_normalize tags).errors
      = (if ((validate_and_normalize tags).normalized_tags.filter
              (fun t => !is_kebab_case t)).isEmpty
         then []
         else [kebab_format_message ((validate_and_normalize tags).normalized_tags.filter
                (fun t => !is_kebab_case t))])
        ++ (if !has_umbrella_tag (validate_and_normalize tags).normalized_tags
            then [umbrella_error_msg] else []) := rfl
  rw [h1, errsEmpty, filter_not_isEmpty_eq_all, Bool.not_not]

/-! ## Claim theorems -/

/-- C8: `get_upcoming_today` delegates to the calendar adapter when one is
present and its call succeeds; when the adapter is absent or its call
raises, it returns the same hardcoded two-item fallback list; being a total
function of the call's outcome, it never raises. -/
theorem get_upcoming_today_fallback_policy :
    (∀ l : List String, get_upcoming_today (some (Except.ok l)) = l) ∧
    (∀ msg : String, get_upcoming_today (some (Except.error msg)) = upcoming_fallback) ∧
    get_upcoming_today none = upcoming_fallback ∧
    upcoming_fallback.length = 2 := by
  refine ⟨fun l => rfl, fun msg => rfl, rfl, rfl⟩

/-- C2: the result of `validate_and_normalize` is valid exactly when its
error list is empty, and the error list is empty exactly when every
normalized tag passes kebab-case and some normalized tag is an umbrella tag
(warnings and suggestions appear nowhere in this condition); on the empty
input the result is invalid, its only error is the umbrella-missing
message, and the normalized tag list is empty. -/
theorem validate_and_normalize_validity :
    (∀ tags : List String,
      (validate_and_normalize tags).is_valid = (validate_and_normalize tags).errors.isEmpty ∧
      (validate_and_normalize tags).errors.isEmpty =
        ((validate_and_normalize tags).normalized_tags.all (fun t => is_kebab_case t) &&
         has_umbrella_tag (validate_and_normalize tags).normalized_tags)) ∧
    (validate_and_normalize []).is_valid = false ∧
    (validate_and_normalize []).errors = [umbrella_error_msg] ∧
    (validate_and_normalize []).normalized_tags = [] := by
  refine ⟨fun tags => ⟨rfl, validate_errors_isEmpty tags⟩, by decide, by decide, by decide⟩

lemma contains_eq_decide_mem (l : List String) (x : String) :
    l.contains x = decide (x ∈ l) := by
  by_cases h : x ∈ l <;> simp [h]

lemma keepFirstById_cons_mem (e : HabitEvent) (t : List HabitEvent) (s : List String)
    (h : e.id ∈ s) : keepFirstById (e :: t) s = keepFirstById t s := by
  simp [keepFirstById, contains_eq_decide_mem, h]

lemma keepFirstById_cons_not_mem (e : HabitEvent) (t : List HabitEvent) (s : List String)
    (h : e.id ∉ s) : keepFirstById (e :: t) s = e :: keepFirstById t (e.id :: s) := by
  simp [keepFirstById, contains_eq_decide_mem, h]

lemma keepLast_cons_mem (e : HabitEvent) (t : List HabitEvent)
    (h : e.id ∈ t.map (fun x => x.id)) : keepLast (e :: t) = keepLast t := by
  simp only [keepLast, contains_eq_decide_mem, h, decide_eq_true_eq, if_pos]

lemma keepLast_cons_not_mem (e : HabitEvent) (t : List HabitEvent)
    (h : e.id ∉ t.map (fun x => x.id)) : keepLast (e :: t) = e :: keepLast t := by
  simp only [keepLast, contains_eq_decide_mem, h, decide_eq_true_eq]
  simp

lemma keepFirstById_congr (l : List HabitEvent) : ∀ s1 s2 : List String,
    (∀ x, x ∈ s1 ↔ x ∈ s2) → keepFirstById l s1 = keepFirstById l s2 := by
  induction l with
  | nil => intro s1 s2 _; rfl
  | cons e t ih =>
    intro s1 s2 h
    by_cases hm : e.id ∈ s1
    · rw [keepFirstById_cons_mem e t s1 hm, keepFirstById_cons_mem e t s2 ((h e.id).mp hm)]
      exact ih s1 s2 h
    · have hm2 : e.id ∉ s2 := fun hx => hm ((h e.id).mpr hx)
      rw [keepFirstById_cons_not_mem e t s1 hm, keepFirstById_cons_not_mem e t s2 hm2]
      exact congrArg (e :: ·) (ih (e.id :: s1) (e.id :: s2) (by
        intro x; simp only [List.mem_cons]; exact or_congr Iff.rfl (h x)))

lemma keepFirstById_append (l2 : List HabitEvent) : ∀ (l1 : List HabitEvent) (s : List String),
    keepFirstById (l1 ++ l2) s
      = keepFirstById l1 s ++ keepFirstById l2 (l1.map (fun e => e.id) ++ s) := by
  intro l1
  induction l1 with
  | nil => intro s; simp [keepFirstById]
  | cons e t ih =>
    intro s
    rw [List.cons_append]
    by_cases hm : e.id ∈ s
    · rw [keepFirstById_cons_mem e (t ++ l2) s hm, keepFirstById_cons_mem e t s hm, ih s,
        List.map_cons]
      refine congrArg (keepFirstById t s ++ ·) (keepFirstById_congr l2 _ _ ?_)
      intro x
      simp only [List.mem_append, List.mem_cons]
      constructor
      · intro hx; tauto
      · rintro ((rfl | hx) | hx)
        · exact Or.inr hm
        · exact Or.inl hx
        · exact Or.inr hx
    · rw [keepFirstById_cons_not_mem e (t ++ l2) s hm, keepFirstById_cons_not_mem e t s hm,
        ih (e.id :: s), List.map_cons, List.cons_append]
      refine congrArg (e :: ·) (congrArg (keepFirstById t (e.id :: s) ++ ·)
        (keepFirstById_congr l2 _ _ ?_))
      intro x
      simp only [List.mem_append, List.mem_cons]
      tauto

lemma dedup_eq_keepLast : ∀ l : List HabitEvent,
    (keepFirstById l.reverse []).reverse = keepLast l := by
  intro l
  induction l with
  | nil => rfl
  | cons e t ih =>
    have hrev : (e :: t).reverse = t.reverse ++ [e] := by simp
    rw [hrev, keepFirstById_append, List.reverse_append]
    by_cases hm : e.id ∈ t.map (fun x => x.id)
    · have hm2 : e.id ∈ t.reverse.map (fun x => x.id) ++ ([] : List String) := by
        simpa using hm
      rw [keepFirstById_cons_mem e [] _ hm2]
      have h0 : keepFirstById ([] : List HabitEvent) (e.id :: (t.reverse.map (fun x => x.id) ++ [])) = [] := rfl
      rw [keepLast_cons_mem e t hm]
      simp [keepFirstById, ih]
    · have hm2 : e.id ∉ t.reverse.map (fun x => x.id) ++ ([] : List String) := by
        simpa using hm
      rw [keepFirstById_cons_not_mem e [] _ hm2, keepLast_cons_not_mem e t hm]
      simp [keepFirstById, ih]

lemma keepLast_filter (i : String) : ∀ l : List HabitEvent,
    (keepLast l).filter (fun h => h.id == i)
      = ((l.filter (fun h => h.id == i)).getLast?).toList := by
  intro l
  induction l with
  | nil => rfl
  | cons e t ih =>
    by_cases hm : e.id ∈ t.map (fun x => x.id)
    · rw [keepLast_cons_mem e t hm]
      by_cases hei : e.id = i
      · rw [List.filter_cons_of_pos (by simp [hei])]
        obtain ⟨a, ha, haid⟩ := List.mem_map.mp hm
        have hmem : a ∈ t.filter (fun h => h.id == i) :=
          List.mem_filter.mpr ⟨ha, by simp [haid, hei]⟩
        obtain ⟨x, xs, hx⟩ := List.exists_cons_of_ne_nil (List.ne_nil_of_mem hmem)
        rw [ih, hx, List.getLast?_cons_cons]
      · rw [List.filter_cons_of_neg (by simp [hei])]
        exact ih
    · rw [keepLast_cons_not_mem e t hm]
      by_cases hei : e.id = i
      · have hft : t.filter (fun h => h.id == i) = [] := by
          rw [List.filter_eq_nil_iff]
          intro a ha hai
          exact hm (List.mem_map.mpr ⟨a, ha, by
            have : a.id = i := by simpa using hai
            rw [this, hei]⟩)
        have hkt : (keepLast t).filter (fun h => h.id == i) = [] := by
          rw [ih, hft]; rfl
        rw [List.filter_cons_of_pos (by simp [hei]), List.filter_cons_of_pos (by simp [hei]),
          hkt, hft]
        rfl
      · rw [List.filter_cons_of_neg (by simp [hei]), List.filter_cons_of_neg (by simp [hei])]
        exact ih

/-- C1 (amended): `fetch_habits_from_all_sources` deduplicates by id with
later-registered sources winning, but survivors are emitted in the order of
their LAST occurrence in the concatenated fetch order, not their first:
the output equals `keepLast` of the concatenation, and for every id the
surviving events are exactly the last occurrence of that id. -/
theorem fetch_from_all_sources_dedup_policy :
    (∀ m : ManagerModel,
       fetch_habits_from_all_sources m = keepLast (concatAvailable m.sources)) ∧
    (∀ (l : List HabitEvent) (i : String),
       (keepLast l).filter (fun h => h.id == i)
         = ((l.filter (fun h => h.id == i)).getLast?).toList) :=
  ⟨fun _ => dedup_eq_keepLast _, fun l i => keepLast_filter i l⟩

/-- C1 counterexample: with sources `[A, B]`, A returning events `x, y` and
B returning its own copy of `x`, the claim predicts the surviving `x`
(content from B) at A's original slot, i.e. before `y`; the code instead
returns `[y, x]` — survivors sit at the position of their last occurrence. -/
theorem fetch_from_all_sources_order_counterexample :
    fetch_habits_from_all_sources dedupDemoManager = [evYA, evXB] ∧
    fetch_habits_from_all_sources dedupDemoManager ≠ [evXB, evYA] ∧
    evXA.id = "x" ∧ evXB.id = "x" ∧ evXA ∈ srcA.fetchAllEvents ∧
    evXB ∈ srcB.fetchAllEvents ∧ dedupDemoManager.sources = [srcA, srcB] := by
  refine ⟨by decide, by decide, rfl, rfl, by decide, by decide, rfl⟩

/-- C5 (amended): the manager's `fetch_recent_habits(days)` delegates
`fetch_habits_by_date_range(now - days, now)` to the resolved adapter when
it is available — the start bound is plain `now - timedelta(days=days)`,
with NO truncation to midnight (midnight truncation belongs to the
adapters' base-class default `fetch_recent_habits`, not to the manager). -/
theorem manager_fetch_recent_delegation (m : ManagerModel) (days : Nat) (now : Int)
    (sourceName : Option String) (s : SourceModel)
    (hres : get_source m sourceName = some s) (hav : s.available = true) :
    manager_fetch_recent m days now sourceName
      = s.fetchRange (now - (days : Int) * USPERDAY) now := by
  unfold manager_fetch_recent manager_fetch_by_date_range
  rw [hres]
  simp [hav]

theorem manager_fetch_recent_delegation_witness :
    get_source recentDemoManager none = some recentDemoSource ∧
    recentDemoSource.available = true ∧
    manager_fetch_recent recentDemoManager 1 tNow none
      = recentDemoSource.fetchRange (tNow - (1 : Int) * USPERDAY) tNow :=
  ⟨rfl, rfl, manager_fetch_recent_delegation recentDemoManager 1 tNow none recentDemoSource rfl rfl⟩

/-- C5 counterexample: with `now` at 01:00 and `days = 1`, the manager's
`fetch_recent` (start `now - 1 day`, i.e. yesterday 01:00) misses the event
at yesterday 00:30, while the claimed midnight-based derivation (start
yesterday 00:00) returns it — so the manager's fetch_recent is not the
claimed `fetch_by_range(today_midnight - days, now)`. -/
theorem manager_fetch_recent_midnight_counterexample :
    manager_fetch_recent recentDemoManager 1 tNow none = [] ∧
    claimed_manager_fetch_recent recentDemoManager 1 tNow none = [evEarly] ∧
    manager_fetch_recent recentDemoManager 1 tNow none
      ≠ claimed_manager_fetch_recent recentDemoManager 1 tNow none := by
  refine ⟨by decide, by decide, by decide⟩

lemma strLeB_refl (a : String) : strLeB a a = true := by
  unfold strLeB
  induction a.data with
  | nil => rfl
  | cons c cs ih => simp [listLeB, ih]

lemma mem_insertByDate (r x : SupaRow) (l : List SupaRow) :
    x ∈ insertByDate r l ↔ x = r ∨ x ∈ l := by
  induction l with
  | nil => simp [insertByDate]
  | cons s rest ih =>
    cases hc : strLeB r.rowDate s.rowDate <;> simp [insertByDate, hc, ih] <;> tauto

lemma mem_sortByDate (x : SupaRow) (l : List SupaRow) : x ∈ sortByDate l ↔ x ∈ l := by
  induction l with
  | nil => simp [sortByDate]
  | cons s rest ih =>
    unfold sortByDate at ih ⊢
    rw [List.foldr_cons, mem_insertByDate, List.mem_cons]
    exact or_congr (by constructor <;> intro h <;> simp [h]) ih

/-- C7: both listed range fetches use inclusive bounds on both ends. For
the mock/sheets filter, an event whose parsed timestamp equals `start` or
equals `end` exactly is kept; for the database query (`gte`/`lte` on the
date column), a row whose date string equals either bound is returned
(converted and stamped). -/
theorem fetch_by_range_inclusive_bounds :
    (∀ (data : List HabitEvent) (startT endT : Int) (h : HabitEvent),
       h ∈ data → startT ≤ endT →
       parseIsoZ h.date = some startT ∨ parseIsoZ h.date = some endT →
       h ∈ filter_by_date_range data startT endT) ∧
    (∀ (rows : List SupaRow) (startS endS : String) (r : SupaRow),
       r ∈ rows → strLeB startS endS = true →
       r.rowDate = startS ∨ r.rowDate = endS →
       supa_stamped r ∈ supabase_fetch_by_range rows startS endS) := by
  constructor
  · intro data startT endT h hmem hle hor
    apply List.mem_filter.mpr
    refine ⟨hmem, ?_⟩
    rcases hor with hp | hp <;> rw [hp] <;> simp [hle]
  · intro rows startS endS r hmem hle hor
    unfold supabase_fetch_by_range add_source_metadata
    apply List.mem_map.mpr
    refine ⟨supa_stamped r, ?_, rfl⟩
    apply List.mem_filterMap.mpr
    refine ⟨r, ?_, rfl⟩
    rw [mem_sortByDate]
    apply List.mem_filter.mpr
    refine ⟨hmem, ?_⟩
    rcases hor with hp | hp <;> rw [hp] <;> simp [strLeB_refl, hle]

theorem fetch_by_range_inclusive_bounds_witness :
    (mockEv1 ∈ mock_sample_data ∧ tEv1 ≤ tEv1 + 1 ∧ parseIsoZ mockEv1.date = some tEv1 ∧
     mockEv1 ∈ filter_by_date_range mock_sample_data tEv1 (tEv1 + 1)) ∧
    (demoSupaRow ∈ [demoSupaRow] ∧
     strLeB "2025-01-14T06:00:00" "2025-01-15T00:00:00" = true ∧
     demoSupaRow.rowDate = "2025-01-14T06:00:00" ∧
     supa_stamped demoSupaRow ∈
       supabase_fetch_by_range [demoSupaRow] "2025-01-14T06:00:00" "2025-01-15T00:00:00") :=
  ⟨⟨by decide, by decide, by decide,
    fetch_by_range_inclusive_bounds.1 mock_sample_data tEv1 (tEv1 + 1) mockEv1
      (by decide) (by decide) (Or.inl (by decide))⟩,
   ⟨by decide, by decide, rfl,
    fetch_by_range_inclusive_bounds.2 [demoSupaRow] "2025-01-14T06:00:00" "2025-01-15T00:00:00"
      demoSupaRow (by decide) (by decide) (Or.inl rfl)⟩⟩

lemma all_source_filter (data : List HabitEvent) (nm : String) (q : HabitEvent → Bool)
    (h : data.all (fun e => e.source == some nm) = true) :
    (data.filter q).all (fun e => e.source == some nm) = true := by
  rw [List.all_eq_true] at h ⊢
  intro e he
  exact h e (List.mem_filter.mp he).1

lemma sheets_fetch_all_stamped (rows : List SheetRow) :
    (sheets_fetch_all rows).all (fun e => e.source == some "google_sheets_simple") = true := by
  rw [List.all_eq_true]
  intro e he
  obtain ⟨r, _, hr⟩ := List.mem_filterMap.mp he
  unfold sheet_row_to_habit_event at hr
  rcases hd : r.rowDuration with _ | n | _ <;> rw [hd] at hr
  · simp only [Option.some.injEq] at hr
    rw [← hr]; simp
  · simp only [Option.some.injEq] at hr
    rw [← hr]; simp
  · simp at hr

lemma supabase_stamped_all (l : List HabitEvent) (nm : String) :
    (add_source_metadata nm l).all (fun e => e.source == some nm) = true := by
  rw [List.all_eq_true]
  intro e he
  obtain ⟨x, _, hx⟩ := List.mem_map.mp he
  rw [← hx]
  simp

/-- C4: every event returned by the listed adapters' fetch operations
carries the adapter's own name in its `source` field, whatever source the
underlying rows claim: the mock fixture and its range/recent fetches stamp
`"mock_data"`, the simple-sheets row conversion stamps
`"google_sheets_simple"` for all of fetch-all/range/recent, and the
database adapter's converter plus `add_source_metadata` stamp `"supabase"`
on fetch-all and range queries (its `fetch_recent` delegates to the range
query). -/
theorem adapter_fetch_stamps_source :
    (mock_fetch_all.all (fun e => e.source == some "mock_data") = true) ∧
    (∀ startT endT : Int,
      (mock_fetch_by_range startT endT).all (fun e => e.source == some "mock_data") = true) ∧
    (∀ (days : Nat) (now : Int),
      (mock_fetch_recent days now).all (fun e => e.source == some "mock_data") = true) ∧
    (∀ rows : List SheetRow,
      (sheets_fetch_all rows).all (fun e => e.source == some "google_sheets_simple") = true) ∧
    (∀ (rows : List SheetRow) (startT endT : Int),
      (sheets_fetch_by_range rows startT endT).all
        (fun e => e.source == some "google_sheets_simple") = true) ∧
    (∀ (rows : List SheetRow) (days : Nat) (now : Int),
      (sheets_fetch_recent rows days now).all
        (fun e => e.source == some "google_sheets_simple") = true) ∧
    (∀ rows : List SupaRow,
      (supabase_fetch_all rows).all (fun e => e.source == some "supabase") = true) ∧
    (∀ (rows : List SupaRow) (startS endS : String),
      (supabase_fetch_by_range rows startS endS).all
        (fun e => e.source == some "supabase") = true) := by
  refine ⟨by decide,
    fun startT endT => by
      unfold mock_fetch_by_range filter_by_date_range
      exact all_source_filter mock_sample_data "mock_data" _ (by decide),
    fun days now => by
      unfold mock_fetch_recent mock_fetch_by_range filter_by_date_range
      exact all_source_filter mock_sample_data "mock_data" _ (by decide),
    sheets_fetch_all_stamped,
    fun rows startT endT => by
      unfold sheets_fetch_by_range filter_by_date_range
      exact all_source_filter (sheets_fetch_all rows) "google_sheets_simple" _
        (sheets_fetch_all_stamped rows),
    fun rows days now => by
      unfold sheets_fetch_recent sheets_fetch_by_range filter_by_date_range
      exact all_source_filter (sheets_fetch_all rows) "google_sheets_simple" _
        (sheets_fetch_all_stamped rows),
    fun rows => supabase_stamped_all _ _,
    fun rows startS endS => supabase_stamped_all _ _⟩

lemma insertIfAbsent_nodup (acc : List String) (t : String) (h : acc.Nodup) :
    (insertIfAbsent acc t).Nodup := by
  unfold insertIfAbsent
  by_cases hm : t ∈ acc
  · simp [contains_eq_decide_mem, hm, h]
  · simp only [contains_eq_decide_mem, hm, decide_eq_true_eq, if_neg, not_false_iff]
    exact List.Nodup.append h (List.nodup_singleton t)
      (fun x hx hx1 => hm (by rwa [List.mem_singleton.mp hx1] at hx))

lemma mem_insertIfAbsent (acc : List String) (t x : String) :
    x ∈ insertIfAbsent acc t → x ∈ acc ∨ x = t := by
  unfold insertIfAbsent
  by_cases hm : t ∈ acc
  · rw [if_pos (by simp [contains_eq_decide_mem, hm])]
    exact Or.inl
  · rw [if_neg (by simp [contains_eq_decide_mem, hm])]
    intro hx
    rcases List.mem_append.mp hx with h | h
    · exact Or.inl h
    · exact Or.inr (List.mem_singleton.mp h)

lemma foldl_insertIfAbsent_nodup (ts : List String) : ∀ acc : List String, acc.Nodup →
    (ts.foldl insertIfAbsent acc).Nodup := by
  induction ts with
  | nil => intro acc h; exact h
  | cons t rest ih =>
    intro acc h
    exact ih (insertIfAbsent acc t) (insertIfAbsent_nodup acc t h)

lemma mem_foldl_insertIfAbsent (ts : List String) : ∀ (acc : List String) (x : String),
    x ∈ ts.foldl insertIfAbsent acc → x ∈ acc ∨ x ∈ ts := by
  induction ts with
  | nil => intro acc x h; exact Or.inl h
  | cons t rest ih =>
    intro acc x h
    rcases ih (insertIfAbsent acc t) x h with h1 | h1
    · rcases mem_insertIfAbsent acc t x h1 with h2 | h2
      · exact Or.inl h2
      · exact Or.inr (by rw [h2]; exact List.mem_cons_self t rest)
    · exact Or.inr (List.mem_cons_of_mem t h1)

lemma collect_keyword_tags_nodup (nl : List Char) : (collect_keyword_tags nl).Nodup := by
  unfold collect_keyword_tags
  generalize keyword_mapping = m
  have : ∀ (mm : List (String × List String)) (acc : List String), acc.Nodup →
      (mm.foldl (fun acc kv =>
        if containsSub kv.1.data nl then kv.2.foldl insertIfAbsent acc else acc) acc).Nodup := by
    intro mm
    induction mm with
    | nil => intro acc h; exact h
    | cons kv rest ih =>
      intro acc h
      by_cases hc : containsSub kv.1.data nl = true <;>
        simp only [List.foldl_cons, hc, if_pos, if_neg, Bool.not_eq_true] <;>
        first
          | exact ih _ (foldl_insertIfAbsent_nodup kv.2 acc h)
          | exact ih _ h
  exact this m [] List.nodup_nil

lemma mem_collect_keyword_tags (nl : List Char) (x : String) :
    x ∈ collect_keyword_tags nl → x ∈ keyword_mapping.flatMap (fun kv => kv.2) := by
  unfold collect_keyword_tags
  have : ∀ (mm : List (String × List String)) (acc : List String),
      x ∈ mm.foldl (fun acc kv =>
        if containsSub kv.1.data nl then kv.2.foldl insertIfAbsent acc else acc) acc →
      x ∈ acc ∨ x ∈ mm.flatMap (fun kv => kv.2) := by
    intro mm
    induction mm with
    | nil => intro acc h; exact Or.inl h
    | cons kv rest ih =>
      intro acc h
      rw [List.foldl_cons] at h
      by_cases hc : containsSub kv.1.data nl = true
      · rw [if_pos hc] at h
        rcases ih _ h with h1 | h1
        · rcases mem_foldl_insertIfAbsent kv.2 acc x h1 with h2 | h2
          · exact Or.inl h2
          · exact Or.inr (by simp [List.mem_flatMap]; exact Or.inl h2)
        · exact Or.inr (by simp [List.mem_flatMap] at h1 ⊢; tauto)
      · rw [if_neg hc] at h
        rcases ih _ h with h1 | h1
        · exact Or.inl h1
        · exact Or.inr (by simp [List.mem_flatMap] at h1 ⊢; tauto)
  intro h
  rcases this keyword_mapping [] h with h1 | h1
  · cases h1
  · exact h1

/-- C9: every tag suggested by `suggest_tags_for_habit_name` belongs to the
fixed approved tag set (every list in the keyword table holds only approved
tags) and the returned list has no duplicates, for every habit name and
every limit. -/
theorem suggest_tags_approved_and_nodup (habit_name : String) (limit : Nat) :
    (suggest_tags_for_habit_name habit_name limit).Nodup ∧
    (suggest_tags_for_habit_name habit_name limit).all
      (fun t => APPROVED_TAGS.contains t) = true := by
  unfold suggest_tags_for_habit_name
  constructor
  · apply List.Nodup.sublist (List.take_sublist _ _)
    apply List.Nodup.append
    · exact (collect_keyword_tags_nodup _).filter _
    · exact (collect_keyword_tags_nodup _).filter _
    · intro x hx hx2
      have h1 := (List.mem_filter.mp hx).2
      have h2 := (List.mem_filter.mp hx2).2
      rw [h1] at h2
      cases h2
  · rw [List.all_eq_true]
    intro t ht
    have hmem : t ∈ collect_keyword_tags (habit_name.data.map toLowerCh) := by
      rcases List.mem_append.mp (List.Sublist.subset (List.take_sublist _ _) ht) with h | h
      · exact (List.mem_filter.mp h).1
      · exact (List.mem_filter.mp h).1
    have happ := mem_collect_keyword_tags _ t hmem
    have hall : (keyword_mapping.flatMap (fun kv => kv.2)).all
        (fun s => APPROVED_TAGS.contains s) = true := by decide
    exact List.all_eq_true.mp hall t happ

lemma kebabRun_false_of_bad (l : List Char) (c : Char) (hc : c ∈ l)
    (h1 : isLowerCh c = false) (h2 : c ≠ '-') : ∀ b, kebabRun b l = false := by
  induction l with
  | nil => cases hc
  | cons d rest ih =>
    intro b
    unfold kebabRun
    by_cases hd : isLowerCh d = true
    · rcases List.mem_cons.mp hc with rfl | hr
      · rw [h1] at hd; cases hd
      · simp only [hd, if_pos]
        exact ih hr true
    · rw [if_neg (by simpa using hd)]
      by_cases hdh : d = '-'
      · rcases List.mem_cons.mp hc with rfl | hr
        · exact absurd hdh h2
        · rw [if_pos hdh, ih hr false, Bool.and_false]
      · rw [if_neg hdh]

lemma digit_ne (c : Char) (h : isDigitCh c = true) (d : Char) (hd : isDigitCh d = false) :
    c ≠ d := fun he => by rw [he, hd] at h; cases h

lemma digit_le_nine (c : Char) (h : isDigitCh c = true) : c ≤ '9' := by
  unfold isDigitCh at h
  exact (by simpa using h : '0' ≤ c ∧ c ≤ '9').2

lemma digit_not_lower (c : Char) (h : isDigitCh c = true) : isLowerCh c = false := by
  unfold isLowerCh
  by_cases ha : 'a' ≤ c
  · exact absurd (le_trans ha (digit_le_nine c h)) (by decide)
  · simp [ha]

lemma is_kebab_false_of_bad (t : String) (c : Char) (hc : c ∈ t.data)
    (h1 : isLowerCh c = false) (h2 : c ≠ '-') (h3 : c ≠ '\n') :
    is_kebab_case t = false := by
  unfold is_kebab_case
  rw [kebabRun_false_of_bad t.data c hc h1 h2 false, Bool.false_or]
  cases hl : t.data.getLast? with
  | none => rfl
  | some d =>
    by_cases hd : d = '\n'
    · have hne : t.data ≠ [] := by
        intro h0
        rw [h0] at hl
        cases hl
      have hgl : t.data.getLast hne = d := by
        rw [List.getLast?_eq_getLast t.data hne] at hl
        exact Option.some_injective _ hl
      have hcd : c ∈ t.data.dropLast := by
        have hin : c ∈ t.data.dropLast ++ [t.data.getLast hne] := by
          rw [List.dropLast_append_getLast hne]
          exact hc
        rcases List.mem_append.mp hin with h | h
        · exact h
        · exact absurd (by rw [List.mem_singleton.mp h, hgl, hd]) h3
      rw [kebabRun_false_of_bad _ c hcd h1 h2 false]
      simp
    · simp [hd]

lemma all_false_of_mem {α : Type} (p : α → Bool) (l : List α) (x : α)
    (hx : x ∈ l) (hp : p x = false) : l.all p = false := by
  cases hall : l.all p
  · rfl
  · rw [List.all_eq_true.mp hall x hx] at hp
    cases hp

lemma toLowerCh_digit (c : Char) (h : isDigitCh c = true) : toLowerCh c = c := by
  unfold toLowerCh
  by_cases hA : 'A' ≤ c
  · exact absurd (le_trans hA (digit_le_nine c h)) (by decide)
  · simp [hA]

lemma digit_not_space (c : Char) (h : isDigitCh c = true) : isSpaceCh c = false := by
  unfold isSpaceCh
  have h1 := digit_ne c h ' ' (by decide)
  have h2 := digit_ne c h '\t' (by decide)
  have h3 := digit_ne c h '\n' (by decide)
  have h4 := digit_ne c h '\r' (by decide)
  have h5 := digit_ne c h '\x0b' (by decide)
  have h6 := digit_ne c h '\x0c' (by decide)
  simp [h1, h2, h3, h4, h5, h6]

lemma digit_not_sep (c : Char) (h : isDigitCh c = true) : isSepCh c = false := by
  unfold isSepCh
  have h1 := digit_ne c h '_' (by decide)
  simp [h1, digit_not_space c h]

lemma mem_dropWhile_of_not (p : Char → Bool) (l : List Char) (c : Char)
    (hc : c ∈ l) (hp : p c = false) : c ∈ l.dropWhile p := by
  induction l with
  | nil => cases hc
  | cons d rest ih =>
    by_cases hd : p d = true
    · rw [List.dropWhile_cons_of_pos hd]
      rcases List.mem_cons.mp hc with rfl | hr
      · rw [hp] at hd; cases hd
      · exact ih hr
    · rw [List.dropWhile_cons_of_neg hd]
      exact hc

lemma mem_pyStrip_of_not (p : Char → Bool) (l : List Char) (c : Char)
    (hc : c ∈ l) (hp : p c = false) : c ∈ pyStrip p l := by
  unfold pyStrip dropTrail
  rw [List.mem_reverse]
  exact mem_dropWhile_of_not p _ c (by
    rw [List.mem_reverse]
    exact mem_dropWhile_of_not p l c hc hp) hp

lemma squash_cons2_pos (p : Char → Bool) (r : Char) (d e : Char) (rest : List Char)
    (h : (p d && p e) = true) :
    squash p r (d :: e :: rest) = squash p r (e :: rest) := by
  simp [squash, h]

lemma squash_cons2_neg (p : Char → Bool) (r : Char) (d e : Char) (rest : List Char)
    (h : (p d && p e) = false) :
    squash p r (d :: e :: rest) = (if p d then r else d) :: squash p r (e :: rest) := by
  simp only [squash, h, Bool.false_eq_true, if_neg, not_false_iff]

lemma mem_squash_of_not (p : Char → Bool) (r : Char) (l : List Char) (c : Char)
    (hc : c ∈ l) (hp : p c = false) : c ∈ squash p r l := by
  induction l with
  | nil => cases hc
  | cons d rest ih =>
    cases rest with
    | nil =>
      rcases List.mem_cons.mp hc with rfl | hr
      · have hd : p c = false := hp
        simp [squash, hd]
      · cases hr
    | cons e rest2 =>
      by_cases hde : (p d && p e) = true
      · rw [squash_cons2_pos p r d e rest2 hde]
        rcases List.mem_cons.mp hc with rfl | hr
        · rw [hp] at hde
          simp at hde
        · exact ih hr
      · rw [squash_cons2_neg p r d e rest2 (by simpa using hde)]
        rcases List.mem_cons.mp hc with rfl | hr
        · rw [if_neg (by simp [hp])]
          exact List.mem_cons_self _ _
        · exact List.mem_cons_of_mem _ (ih hr)

lemma digit_mem_normalizeL (l : List Char) (c : Char)
    (h : isDigitCh c = true) (hc : c ∈ l) : c ∈ normalizeL l := by
  have hhy : isHyphCh c = false := by
    unfold isHyphCh
    simp [digit_ne c h '-' (by decide)]
  apply mem_pyStrip_of_not isHyphCh _ c ?_ hhy
  apply mem_squash_of_not isHyphCh '-' _ c ?_ hhy
  apply List.mem_filter.mpr
  refine ⟨?_, by unfold isAllowedCh; rw [h]; simp⟩
  apply mem_squash_of_not isSepCh '-' _ c ?_ (digit_not_sep c h)
  apply mem_pyStrip_of_not isSpaceCh _ c ?_ (digit_not_space c h)
  rw [List.mem_map]
  exact ⟨c, hc, toLowerCh_digit c h⟩

/-- C10: a normalized tag that still holds a digit always fails kebab-case
validation — normalization preserves digits (they lie in `[a-z0-9-]`) while
`is_kebab_case` rejects every digit — so a result whose normalized tags
include a digit-bearing tag is never valid. -/
theorem digit_tags_never_valid :
    (∀ (tags : List String) (t : String),
       t ∈ (validate_and_normalize tags).normalized_tags →
       t.data.any isDigitCh = true →
       is_kebab_case t = false ∧ (validate_and_normalize tags).is_valid = false) ∧
    (∀ (l : List Char) (c : Char), isDigitCh c = true → c ∈ l → c ∈ normalizeL l) := by
  constructor
  · intro tags t hmem hany
    obtain ⟨c, hc, hdig⟩ := List.any_eq_true.mp hany
    have hkeb : is_kebab_case t = false :=
      is_kebab_false_of_bad t c hc (digit_not_lower c hdig)
        (digit_ne c hdig '-' (by decide)) (digit_ne c hdig '\n' (by decide))
    refine ⟨hkeb, ?_⟩
    show (validate_and_normalize tags).errors.isEmpty = false
    rw [validate_errors_isEmpty,
      all_false_of_mem (fun t => is_kebab_case t) _ t hmem hkeb, Bool.false_and]
  · intro l c h hc
    exact digit_mem_normalizeL l c h hc

theorem digit_tags_never_valid_witness :
    (("day1" : String) ∈ (validate_and_normalize ["day1", "health"]).normalized_tags ∧
     ("day1" : String).data.any isDigitCh = true ∧
     is_kebab_case "day1" = false ∧
     (validate_and_normalize ["day1", "health"]).is_valid = false) ∧
    (isDigitCh '1' = true ∧ '1' ∈ ['d', 'a', 'y', '1'] ∧ '1' ∈ normalizeL ['d', 'a', 'y', '1']) :=
  ⟨⟨by decide, by decide,
    (digit_tags_never_valid.1 ["day1", "health"] "day1" (by decide) (by decide)).1,
    (digit_tags_never_valid.1 ["day1", "health"] "day1" (by decide) (by decide)).2⟩,
   ⟨by decide, by decide,
    digit_tags_never_valid.2 ['d', 'a', 'y', '1'] '1' (by decide) (by decide)⟩⟩

lemma segsOf_ne_nil : ∀ l : List Char, segsOf l ≠ [] := by
  intro l
  induction l with
  | nil => simp [segsOf]
  | cons c rest _ =>
    unfold segsOf
    by_cases hc : c = '-'
    · simp [hc]
    · rw [if_neg hc]
      cases h : segsOf rest with
      | nil => simp
      | cons s ss => simp

lemma segsOf_cons_hyph (c : Char) (rest : List Char) (h : c = '-') :
    segsOf (c :: rest) = [] :: segsOf rest := by
  simp [segsOf, h]

lemma segsOf_cons_nonhyph (c : Char) (rest : List Char) (h : c ≠ '-') :
    segsOf (c :: rest) = (match segsOf rest with
      | [] => [[c]]
      | s :: ss => (c :: s) :: ss) := by
  simp [segsOf, h]

lemma lower_ne_hyph (c : Char) (h : isLowerCh c = true) : c ≠ '-' := by
  intro he
  rw [he] at h
  exact absurd h (by decide)

lemma kebabRun_eq_segs : ∀ (l : List Char) (b : Bool),
    kebabRun b l = (match segsOf l with
      | [] => b
      | s :: ss => (b || !s.isEmpty) && s.all isLowerCh && ss.all segOk) := by
  intro l
  induction l with
  | nil =>
    intro b
    simp [kebabRun, segsOf]
  | cons c rest ih =>
    intro b
    unfold kebabRun
    by_cases hlow : isLowerCh c = true
    · rw [if_pos hlow, ih true, segsOf_cons_nonhyph c rest (lower_ne_hyph c hlow)]
      cases hs : segsOf rest with
      | nil => exact absurd hs (segsOf_ne_nil rest)
      | cons s ss =>
        cases s.all isLowerCh <;> cases ss.all segOk <;> simp [hlow]
    · rw [if_neg (by simpa using hlow)]
      by_cases hc : c = '-'
      · rw [if_pos hc, ih false, segsOf_cons_hyph c rest hc]
        cases hs : segsOf rest with
        | nil => exact absurd hs (segsOf_ne_nil rest)
        | cons s ss =>
          cases b <;> cases hemp : s.isEmpty <;> cases s.all isLowerCh <;>
            cases ss.all segOk <;> simp [segOk, hemp]
      · rw [if_neg hc, segsOf_cons_nonhyph c rest hc]
        cases hs : segsOf rest with
        | nil => exact absurd hs (segsOf_ne_nil rest)
        | cons s ss =>
          cases b <;> simp [hlow]

lemma kebabRun_eq_strict (l : List Char) : kebabRun false l = strictKebab l := by
  rw [kebabRun_eq_segs l false]
  unfold strictKebab
  cases hs : segsOf l with
  | nil => exact absurd hs (segsOf_ne_nil l)
  | cons s ss =>
    cases hemp : s.isEmpty <;> cases s.all isLowerCh <;> cases ss.all segOk <;>
      simp [segOk, hemp]

/-- C6 (amended): `is_kebab_case t` is true iff `t` matches
`^[a-z]+(-[a-z]+)*$` exactly — nonempty all-lowercase segments joined by
single hyphens, no digits, no leading/trailing hyphen, no empty segments —
OR `t` is such a match followed by one trailing newline: Python's `$`
also matches just before a newline at the end of the string. -/
theorem is_kebab_case_characterization (t : String) :
    is_kebab_case t = true ↔
      (strictKebab t.data = true ∨
       (t.data.getLast? = some '\n' ∧ strictKebab t.data.dropLast = true)) := by
  unfold is_kebab_case
  cases hl : t.data.getLast? with
  | none => simp [kebabRun_eq_strict]
  | some d =>
    rw [kebabRun_eq_strict, kebabRun_eq_strict]
    by_cases hd : d = '\n'
    · subst hd
      simp
    · simp [hd]

/-- C6 counterexample: `"abc\n"` holds a newline — a character outside the
claim's allowed alphabet — yet `is_kebab_case` accepts it, because Python's
`$` matches before a trailing newline; the claim as stated requires `false`
here. -/
theorem is_kebab_case_trailing_newline :
    is_kebab_case "abc\n" = true ∧ kebab_exact_spec "abc\n" = false :=
  ⟨by decide, by decide⟩

lemma mem_squash (p : Char → Bool) (r : Char) : ∀ (l : List Char) (c : Char),
    c ∈ squash p r l → c = r ∨ c ∈ l := by
  intro l
  induction l with
  | nil => intro c hc; simp [squash] at hc
  | cons d rest ih =>
    intro c hc
    cases rest with
    | nil =>
      by_cases hd : p d = true
      · simp [squash, hd] at hc
        exact Or.inl hc
      · simp [squash, hd] at hc
        exact Or.inr (by simp [hc])
    | cons e t =>
      by_cases hde : (p d && p e) = true
      · rw [squash_cons2_pos p r d e t hde] at hc
        rcases ih c hc with h | h
        · exact Or.inl h
        · exact Or.inr (List.mem_cons_of_mem d h)
      · rw [squash_cons2_neg p r d e t (by simpa using hde)] at hc
        rcases List.mem_cons.mp hc with rfl | h
        · by_cases hd : p d = true
          · rw [if_pos hd]
            exact Or.inl rfl
          · rw [if_neg hd]
            exact Or.inr (List.mem_cons_self d (e :: t))
        · rcases ih c h with h1 | h1
          · exact Or.inl h1
          · exact Or.inr (List.mem_cons_of_mem d h1)

lemma mem_pyStrip (p : Char → Bool) (l : List Char) (c : Char)
    (hc : c ∈ pyStrip p l) : c ∈ l := by
  unfold pyStrip dropTrail at hc
  rw [List.mem_reverse] at hc
  have h1 := (List.dropWhile_sublist _).subset hc
  rw [List.mem_reverse] at h1
  exact (List.dropWhile_sublist _).subset h1

lemma allowed_of_mem_normalizeL (l : List Char) (c : Char)
    (hc : c ∈ normalizeL l) : isAllowedCh c = true := by
  unfold normalizeL at hc
  rcases mem_squash isHyphCh '-' _ c (mem_pyStrip isHyphCh _ c hc) with rfl | h2
  · decide
  · exact (List.mem_filter.mp h2).2

lemma allowed_cases (c : Char) (h : isAllowedCh c = true) :
    ('a' ≤ c ∧ c ≤ 'z') ∨ ('0' ≤ c ∧ c ≤ '9') ∨ c = '-' := by
  simpa [isAllowedCh, isLowerCh, isDigitCh, or_assoc] using h

lemma toLowerCh_allowed (c : Char) (h : isAllowedCh c = true) : toLowerCh c = c := by
  unfold toLowerCh
  by_cases hA : ('A' ≤ c && c ≤ 'Z') = true
  · exfalso
    rcases (by simpa using hA : 'A' ≤ c ∧ c ≤ 'Z') with ⟨hA1, hA2⟩
    rcases allowed_cases c h with ⟨h1, _⟩ | ⟨_, h2⟩ | rfl
    · exact absurd (le_trans h1 hA2) (by decide)
    · exact absurd (le_trans hA1 h2) (by decide)
    · exact absurd hA1 (by decide)
  · rw [if_neg (by simpa using hA)]

lemma map_toLower_id (l : List Char) (h : ∀ c ∈ l, isAllowedCh c = true) :
    l.map toLowerCh = l := by
  induction l with
  | nil => rfl
  | cons c t ih =>
    rw [List.map_cons, toLowerCh_allowed c (h c (List.mem_cons_self c t)),
      ih (fun x hx => h x (List.mem_cons_of_mem c hx))]

lemma allowed_not_space (c : Char) (h : isAllowedCh c = true) : isSpaceCh c = false := by
  have hne : ∀ d : Char, isAllowedCh d = false → c ≠ d := by
    intro d hd he
    rw [he, hd] at h
    cases h
  unfold isSpaceCh
  have h1 := hne ' ' (by decide)
  have h2 := hne '\t' (by decide)
  have h3 := hne '\n' (by decide)
  have h4 := hne '\r' (by decide)
  have h5 := hne '\x0b' (by decide)
  have h6 := hne '\x0c' (by decide)
  simp [h1, h2, h3, h4, h5, h6]

lemma allowed_not_sep (c : Char) (h : isAllowedCh c = true) : isSepCh c = false := by
  unfold isSepCh
  rw [allowed_not_space c h, Bool.or_false]
  have hne : c ≠ '_' := by
    intro he
    rw [he] at h
    cases h
  simp [hne]

lemma dropWhile_eq_self_of (p : Char → Bool) (l : List Char)
    (h : ∀ c ∈ l, p c = false) : l.dropWhile p = l := by
  cases l with
  | nil => rfl
  | cons c t =>
    exact List.dropWhile_cons_of_neg (by simp [h c (List.mem_cons_self c t)])

lemma pyStrip_eq_self_of (p : Char → Bool) (l : List Char)
    (h : ∀ c ∈ l, p c = false) : pyStrip p l = l := by
  unfold pyStrip dropTrail
  rw [dropWhile_eq_self_of p l h,
    dropWhile_eq_self_of p l.reverse (fun c hc => h c (List.mem_reverse.mp hc)),
    List.reverse_reverse]

lemma squash_eq_self_of (p : Char → Bool) (r : Char) : ∀ l : List Char,
    (∀ c ∈ l, p c = false) → squash p r l = l := by
  intro l
  induction l with
  | nil => intro _; rfl
  | cons c rest ih =>
    intro h
    have hc : p c = false := h c (List.mem_cons_self c rest)
    cases rest with
    | nil => simp [squash, hc]
    | cons d t =>
      rw [squash_cons2_neg p r c d t (by rw [hc, Bool.false_and]), if_neg (by simp [hc]),
        ih (fun x hx => h x (List.mem_cons_of_mem c hx))]

lemma squash_eq_self_of_chain (p : Char → Bool) (r : Char)
    (hpr : ∀ c, p c = true → c = r) : ∀ l : List Char,
    List.Chain' (fun a b => ¬(p a = true ∧ p b = true)) l → squash p r l = l := by
  intro l
  induction l with
  | nil => intro _; rfl
  | cons c rest ih =>
    intro hch
    cases rest with
    | nil =>
      by_cases hc : p c = true
      · simp [squash, hc, hpr c hc]
      · simp [squash, hc]
    | cons d t =>
      have hrel := (List.chain'_cons.mp hch).1
      have htail := (List.chain'_cons.mp hch).2
      by_cases hc : p c = true
      · have hd : p d = false := by
          cases hpd : p d
          · rfl
          · exact absurd ⟨hc, hpd⟩ hrel
        rw [squash_cons2_neg p r c d t (by rw [hd, Bool.and_false]), if_pos hc,
          ih htail, hpr c hc]
      · have hc2 : p c = false := by simpa using hc
        rw [squash_cons2_neg p r c d t (by rw [hc2, Bool.false_and]), if_neg hc, ih htail]

lemma squash_head_not (p : Char → Bool) (r : Char) (d : Char) (t : List Char)
    (hd : p d = false) : (squash p r (d :: t)).head? = some d := by
  cases t with
  | nil => simp [squash, hd]
  | cons e t2 =>
    rw [squash_cons2_neg p r d e t2 (by rw [hd, Bool.false_and]), if_neg (by simp [hd])]
    rfl

lemma chain'_squash (p : Char → Bool) (r : Char) : ∀ l : List Char,
    List.Chain' (fun a b => ¬(p a = true ∧ p b = true)) (squash p r l) := by
  intro l
  induction l with
  | nil => simp [squash]
  | cons c rest ih =>
    cases rest with
    | nil =>
      by_cases hc : p c = true <;> simp [squash, hc]
    | cons d t =>
      by_cases hcd : (p c && p d) = true
      · rw [squash_cons2_pos p r c d t hcd]
        exact ih
      · rw [squash_cons2_neg p r c d t (by simpa using hcd)]
        by_cases hc : p c = true
        · have hd : p d = false := by
            cases hpd : p d
            · rfl
            · exact absurd (by simp [hc, hpd]) hcd
          rw [if_pos hc]
          apply List.chain'_cons'.mpr
          refine ⟨?_, ih⟩
          intro y hy
          rw [squash_head_not p r d t hd] at hy
          have hyd : d = y := by simpa using hy
          rw [← hyd]
          intro hcon
          rw [hd] at hcon
          exact absurd hcon.2 (by simp)
        · rw [if_neg hc]
          apply List.chain'_cons'.mpr
          exact ⟨fun y _ => fun hcon => hc hcon.1, ih⟩

lemma chain'_symm_rev {R : Char → Char → Prop} (hsym : ∀ a b, R a b → R b a)
    (l : List Char) (h : List.Chain' R l) : List.Chain' R l.reverse :=
  List.chain'_reverse.mpr (h.imp hsym)

lemma chain'_dropWhile {R : Char → Char → Prop} (p : Char → Bool) :
    ∀ l : List Char, List.Chain' R l → List.Chain' R (l.dropWhile p) := by
  intro l
  induction l with
  | nil => intro h; exact h
  | cons c t ih =>
    intro h
    by_cases hc : p c = true
    · rw [List.dropWhile_cons_of_pos hc]
      exact ih h.tail
    · rw [List.dropWhile_cons_of_neg hc]
      exact h

lemma chain'_pyStrip {R : Char → Char → Prop} (hsym : ∀ a b, R a b → R b a)
    (p : Char → Bool) (l : List Char) (h : List.Chain' R l) :
    List.Chain' R (pyStrip p l) := by
  unfold pyStrip dropTrail
  exact chain'_symm_rev hsym _ (chain'_dropWhile p _
    (chain'_symm_rev hsym _ (chain'_dropWhile p _ h)))

lemma dropWhile_head_false (p : Char → Bool) : ∀ (l : List Char) (c : Char) (t : List Char),
    l.dropWhile p = c :: t → p c = false := by
  intro l
  induction l with
  | nil => intro c t h; cases h
  | cons d r ih =>
    intro c t h
    by_cases hd : p d = true
    · rw [List.dropWhile_cons_of_pos hd] at h
      exact ih c t h
    · rw [List.dropWhile_cons_of_neg hd] at h
      injection h with h1 _
      rw [← h1]
      simpa using hd

lemma dropWhile_eq_self_of_head (p : Char → Bool) (l : List Char)
    (h : ∀ c t, l = c :: t → p c = false) : l.dropWhile p = l := by
  cases l with
  | nil => rfl
  | cons c t => exact List.dropWhile_cons_of_neg (by simp [h c t rfl])

lemma dropTrail_prefix (p : Char → Bool) (x : List Char) :
    List.IsPrefix (dropTrail p x) x := by
  unfold dropTrail
  obtain ⟨t, ht⟩ := List.dropWhile_suffix (l := x.reverse) p
  refine ⟨t.reverse, ?_⟩
  rw [← List.reverse_append, ht, List.reverse_reverse]

lemma pyStrip_head_false (p : Char → Bool) (l : List Char) (c : Char) (t : List Char)
    (h : pyStrip p l = c :: t) : p c = false := by
  obtain ⟨s, hs⟩ := dropTrail_prefix p (l.dropWhile p)
  rw [show dropTrail p (l.dropWhile p) = pyStrip p l from rfl, h] at hs
  exact dropWhile_head_false p l c (t ++ s) (by rw [← hs]; simp)

lemma pyStrip_last_false (p : Char → Bool) (l : List Char) (c : Char)
    (h : (pyStrip p l).getLast? = some c) : p c = false := by
  have hrev : (pyStrip p l).reverse = ((l.dropWhile p).reverse).dropWhile p := by
    unfold pyStrip dropTrail
    rw [List.reverse_reverse]
  rw [← List.head?_reverse, hrev] at h
  cases hx : ((l.dropWhile p).reverse).dropWhile p with
  | nil => rw [hx] at h; cases h
  | cons d t2 =>
    rw [hx] at h
    have hcd : d = c := by simpa using h
    rw [← hcd]
    exact dropWhile_head_false p _ d t2 hx

lemma pyStrip_pyStrip (p : Char → Bool) (x : List Char) :
    pyStrip p (pyStrip p x) = pyStrip p x := by
  have h1 : (pyStrip p x).dropWhile p = pyStrip p x :=
    dropWhile_eq_self_of_head p _ (fun c t h => pyStrip_head_false p x c t h)
  have h2 : (pyStrip p x).reverse.dropWhile p = (pyStrip p x).reverse := by
    apply dropWhile_eq_self_of_head
    intro c t h
    apply pyStrip_last_false p x c
    rw [← List.head?_reverse, h]
    rfl
  show dropTrail p ((pyStrip p x).dropWhile p) = pyStrip p x
  rw [h1]
  unfold dropTrail
  rw [h2, List.reverse_reverse]

lemma normalizeL_of_tail (y : List Char) :
    normalizeL (pyStrip isHyphCh (squash isHyphCh '-' (y.filter isAllowedCh)))
      = pyStrip isHyphCh (squash isHyphCh '-' (y.filter isAllowedCh)) := by
  set s3 := y.filter isAllowedCh with hs3
  set u := pyStrip isHyphCh (squash isHyphCh '-' s3) with hu
  have hall : ∀ c ∈ u, isAllowedCh c = true := by
    intro c hc
    rcases mem_squash isHyphCh '-' _ c (mem_pyStrip isHyphCh _ c hc) with rfl | h2
    · decide
    · exact (List.mem_filter.mp h2).2
  have hsym : ∀ a b : Char, ¬(isHyphCh a = true ∧ isHyphCh b = true) →
      ¬(isHyphCh b = true ∧ isHyphCh a = true) := fun a b h hc => h ⟨hc.2, hc.1⟩
  have hchain : List.Chain' (fun a b => ¬(isHyphCh a = true ∧ isHyphCh b = true)) u :=
    chain'_pyStrip hsym isHyphCh _ (chain'_squash isHyphCh '-' s3)
  simp only [normalizeL]
  rw [map_toLower_id u hall,
    pyStrip_eq_self_of isSpaceCh u (fun c hc => allowed_not_space c (hall c hc)),
    squash_eq_self_of isSepCh '-' u (fun c hc => allowed_not_sep c (hall c hc)),
    List.filter_eq_self.mpr hall,
    squash_eq_self_of_chain isHyphCh '-' (fun c h => by simpa [isHyphCh] using h) u hchain,
    hu]
  exact pyStrip_pyStrip isHyphCh _

/-- C3: tag normalization is idempotent — normalizing an already-normalized
tag changes nothing, for every input string. -/
theorem normalize_tag_idempotent (t : String) :
    normalize_tag (normalize_tag t) = normalize_tag t := by
  show ({ data := normalizeL (normalizeL t.data) } : String) = { data := normalizeL t.data }
  rw [show normalizeL (normalizeL t.data) = normalizeL t.data from
    normalizeL_of_tail (squash isSepCh '-' (pyStrip isSpaceCh (t.data.map toLowerCh)))]
